import Mathlib

/-!
Verification development for the TorchDR affinity engine.

Part 1 models `src/torchdr/utils/wrappers.py`: backend/device handling and
input validation (`to_torch`, `torch_to_backend`, `handle_backend`,
`contiguous_output`).  Tensors and arrays are modelled by the attributes the
wrappers inspect: complexity, finiteness, number of dimensions, dtype class,
device and contiguity.

Part 2 models the affinity-computation engine (kernel transforms, entropic
calibration, symmetric entropic optimization, doubly stochastic Sinkhorn).
That code is not among the provided sources (only its tests are), so those
definitions are modelled from the spec, as marked in their doc comments.
-/

namespace TorchDR

/-- A torch device, as far as the wrappers distinguish them. -/
inductive TDevice
  | cpu
  | cuda
deriving DecidableEq, Repr

/-- A torch tensor, modelled by the attributes `wrappers.py` inspects:
`torch.is_complex`, `torch.isfinite(...).all()`, `ndim`,
`dtype.is_floating_point`, `device`, and contiguity. -/
structure TorchTensor where
  isComplex : Bool
  allFinite : Bool
  ndim : Nat
  isFloatDtype : Bool
  device : TDevice
  contig : Bool
deriving DecidableEq, Repr

/-- A numpy array, modelled by the attributes the wrappers and
`sklearn.utils.validation.check_array` inspect.  `hasNonzeroImag` models
`np.iscomplex(x).any()` (a nonzero imaginary part somewhere), which can only
hold for a complex dtype. -/
structure NumpyArray where
  isComplexDtype : Bool
  hasNonzeroImag : Bool
  allFinite : Bool
  ndim : Nat
  isFloatDtype : Bool
deriving DecidableEq, Repr

/-- Input to `to_torch`: either a torch tensor or a numpy array. -/
inductive ArrayInput
  | torch (t : TorchTensor)
  | numpy (a : NumpyArray)
deriving DecidableEq, Repr

/-- The backend tag recorded by `to_torch` for later round-trip conversion. -/
inductive Backend
  | torch
  | numpy
deriving DecidableEq, Repr

/-- The `ValueError`s the validation path can raise: complex input,
non-finite input, malformed shape (the latter from `check_array`). -/
inductive ErrKind
  | complexErr
  | nonfiniteErr
  | shapeErr
deriving DecidableEq, Repr

/-- `x.to(d)`: move a tensor to device `d`. -/
def TorchTensor.to (t : TorchTensor) (d : TDevice) : TorchTensor :=
  { t with device := d }

/-- `x.float()`: convert to a floating dtype (float32). -/
def TorchTensor.float (t : TorchTensor) : TorchTensor :=
  { t with isFloatDtype := true }

/-- `x.contiguous()`. -/
def TorchTensor.contiguous (t : TorchTensor) : TorchTensor :=
  { t with contig := true }

/-- `x.numpy()` after `x.to(device)`: the resulting array mirrors the
tensor's attributes. -/
def TorchTensor.toNumpy (t : TorchTensor) : NumpyArray :=
  { isComplexDtype := t.isComplex, hasNonzeroImag := t.isComplex,
    allFinite := t.allFinite, ndim := t.ndim, isFloatDtype := t.isFloatDtype }

/-- Modelled from the documented contract of
`sklearn.utils.validation.check_array(x, accept_sparse=False)` (an external
dependency): it rejects complex data, then non-2-D arrays
(`ensure_2d=True` by default), then non-finite values; all as `ValueError`. -/
def check_array (a : NumpyArray) : Except ErrKind NumpyArray :=
  if a.isComplexDtype then .error .complexErr
  else if a.ndim ≠ 2 then .error .shapeErr
  else if !a.allFinite then .error .nonfiniteErr
  else .ok a

/-- `torch.from_numpy(x.copy())`: a cpu tensor with the array's dtype class,
contiguous because of the fresh copy. -/
def from_numpy (a : NumpyArray) : TorchTensor :=
  { isComplex := a.isComplexDtype, allFinite := a.allFinite, ndim := a.ndim,
    isFloatDtype := a.isFloatDtype, device := .cpu, contig := true }

/-- `use_gpu = (device in ["cuda", "cuda:0", "gpu", None]) and torch.cuda.is_available()`. -/
def use_gpu (device : Option String) (cudaAvailable : Bool) : Bool :=
  (decide (device = some "cuda") || decide (device = some "cuda:0") ||
    decide (device = some "gpu") || decide (device = none)) && cudaAvailable

/-- `new_device = torch.device("cuda:0" if use_gpu else "cpu")`. -/
def new_device (device : Option String) (cudaAvailable : Bool) : TDevice :=
  if use_gpu device cudaAvailable then .cuda else .cpu

/-- The body of `to_torch` (before the `contiguous_output` decorator),
returning the converted tensor together with the recorded input backend and
input device, as when `return_backend_device=True`. -/
def to_torch_core (cudaAvailable : Bool) (device : Option String) (x : ArrayInput) :
    Except ErrKind (TorchTensor × Backend × TDevice) :=
  let nd := new_device device cudaAvailable
  match x with
  | .torch t =>
    if t.isComplex then .error .complexErr
    else if !t.allFinite then .error .nonfiniteErr
    else
      let x1 := t.to nd
      let x2 := if !x1.isFloatDtype then x1.float else x1
      .ok (x2, .torch, t.device)
  | .numpy a =>
    match check_array a with
    | .error e => .error e
    | .ok a1 =>
      if a1.isComplexDtype && a1.hasNonzeroImag then .error .complexErr
      else
        let x1 := (from_numpy a1).to nd
        let x2 := if !x1.isFloatDtype then x1.float else x1
        .ok (x2, .numpy, .cpu)

/-- `to_torch` with `return_backend_device=False`, wrapped by
`contiguous_output` (which makes every returned tensor contiguous). -/
def to_torch (cudaAvailable : Bool) (device : Option String) (x : ArrayInput) :
    Except ErrKind TorchTensor :=
  match to_torch_core cudaAvailable device x with
  | .error e => .error e
  | .ok (t, _, _) => .ok t.contiguous

/-- `to_torch` with `return_backend_device=True`, wrapped by
`contiguous_output` (which makes the tensor components of the returned
tuple contiguous). -/
def to_torch_rbd (cudaAvailable : Bool) (device : Option String) (x : ArrayInput) :
    Except ErrKind (TorchTensor × Backend × TDevice) :=
  match to_torch_core cudaAvailable device x with
  | .error e => .error e
  | .ok (t, b, d) => .ok (t.contiguous, b, d)

/-- `torch_to_backend(x, backend, device)`: move `x` to `device`, then
return `x.numpy()` when `backend == "numpy"`, else the tensor itself. -/
def torch_to_backend (x : TorchTensor) (backend : Backend) (device : TDevice) :
    ArrayInput :=
  let x1 := x.to device
  match backend with
  | .numpy => .numpy x1.toNumpy
  | .torch => .torch x1

/-- The `handle_backend` decorator: convert the input to torch on the
device chosen by `self`, run the wrapped computation, and convert the
(detached) output back to the input backend and device. -/
def handle_backend (cudaAvailable : Bool) (selfDevice : Option String)
    (func : TorchTensor → TorchTensor) (X : ArrayInput) : Except ErrKind ArrayInput :=
  match to_torch_rbd cudaAvailable selfDevice X with
  | .error e => .error e
  | .ok (x1, backend, dev) => .ok (torch_to_backend (func x1) backend dev)

/-- Whether the input is complex (complex torch tensor, or complex-dtype
numpy array). -/
def ArrayInput.isComplexInput : ArrayInput → Bool
  | .torch t => t.isComplex
  | .numpy a => a.isComplexDtype

/-- Whether all entries of the input are finite. -/
def ArrayInput.finiteAll : ArrayInput → Bool
  | .torch t => t.allFinite
  | .numpy a => a.allFinite

/-- The backend an input belongs to. -/
def ArrayInput.backendTag : ArrayInput → Backend
  | .torch _ => .torch
  | .numpy _ => .numpy

/-- A concrete real, finite, 1-D torch tensor (used as input below). -/
def oneDTensor : TorchTensor :=
  { isComplex := false, allFinite := true, ndim := 1, isFloatDtype := true,
    device := .cpu, contig := true }

/-- A concrete real, finite, 2-D torch tensor. -/
def planeTensor : TorchTensor :=
  { isComplex := false, allFinite := true, ndim := 2, isFloatDtype := true,
    device := .cpu, contig := true }

/-- A concrete real, finite, 2-D integer-dtype numpy array. -/
def intArray : NumpyArray :=
  { isComplexDtype := false, hasNonzeroImag := false, allFinite := true,
    ndim := 2, isFloatDtype := false }

/-- A concrete complex torch tensor. -/
def complexTensor : TorchTensor :=
  { isComplex := true, allFinite := true, ndim := 2, isFloatDtype := true,
    device := TDevice.cpu, contig := true }

/-- A concrete real, finite, 1-D integer-dtype numpy array. -/
def oneDIntArray : NumpyArray :=
  { isComplexDtype := false, hasNonzeroImag := false, allFinite := true,
    ndim := 1, isFloatDtype := false }

/-!
Part 2: the affinity-computation engine.  The module `torchdr.affinity` is
not among the provided sources (only its test suite is), so the definitions
below are modelled from the spec, as their doc comments state.  Matrices are
functions `Fin n → Fin n → ℝ` and all computations are exact real
arithmetic.
-/

/-- Modelled from the spec: the row-wise log-sum-exp used by every
log-domain computation of the engine. -/
noncomputable def logsumexp {n : ℕ} (v : Fin n → ℝ) : ℝ :=
  Real.log (∑ j, Real.exp (v j))

/-- Modelled from the spec: `log_Pe(C, eps)`, the log-domain entropic
affinity candidate `log_Pe_i = −C_i/ε_i − logsumexp(−C_i/ε_i)` (the
log-space softmax of `−C_i/ε_i`, row by row). -/
noncomputable def log_Pe {n : ℕ} (C : Fin n → Fin n → ℝ) (eps : Fin n → ℝ) :
    Fin n → Fin n → ℝ :=
  fun i j => -C i j / eps i - logsumexp (fun k => -C i k / eps i)

/-- Modelled from the spec: `entropy(log_P, log=True)`: per-row Shannon
entropy computed in log-space, `H_i = −∑_j exp(log_P_ij) · log_P_ij`. -/
noncomputable def entropy {n : ℕ} (logP : Fin n → Fin n → ℝ) : Fin n → ℝ :=
  fun i => -∑ j, Real.exp (logP i j) * logP i j

/-- Row sums of the linear-domain matrix obtained by exponentiating a
log-domain affinity. -/
noncomputable def expRowSum {n : ℕ} (logP : Fin n → Fin n → ℝ) (i : Fin n) : ℝ :=
  ∑ j, Real.exp (logP i j)

/-- The entropy-gap function whose root the per-row bisection refines:
`entropy(log_Pe(C, eps), log=True) − (log(perplexity) + 1)`, per row. -/
noncomputable def entropyGap {n : ℕ} (C : Fin n → Fin n → ℝ) (perp : ℝ)
    (eps : Fin n → ℝ) (i : Fin n) : ℝ :=
  entropy (log_Pe C eps) i - (Real.log perp + 1)

/-- The linear-domain softmax family of one row: `Pe_i(ε) = softmax(−c/ε)`. -/
noncomputable def softmaxRow {n : ℕ} (c : Fin n → ℝ) (e : ℝ) : Fin n → ℝ :=
  fun j => Real.exp (-c j / e) / ∑ k, Real.exp (-c k / e)

/-- The Shannon entropy of one row of the softmax family, as a function of
the temperature. -/
noncomputable def rowEntropy {n : ℕ} (c : Fin n → ℝ) (e : ℝ) : ℝ :=
  ∑ j, Real.negMulLog (softmaxRow c e j)

open Classical in
/-- Modelled from the spec: `bounds_entropic_affinity(C, perplexity)`
returns per-row bisection bounds `(begin, end)` bracketing the root of the
entropy-gap function.  The closed-form bound expressions of the
implementation are not among the provided sources; the function is
modelled by the bracketing contract the spec assigns to it, choosing for
each row a temperature below target entropy and one above when they
exist. -/
noncomputable def bounds_entropic_affinity {n : ℕ} (C : Fin n → Fin n → ℝ)
    (perp : ℝ) : (Fin n → ℝ) × (Fin n → ℝ) :=
  (fun i => if h : ∃ e, rowEntropy (C i) e < Real.log perp + 1 then h.choose else 1,
   fun i => if h : ∃ e, Real.log perp + 1 < rowEntropy (C i) e then h.choose else 1)

/-- The kernels of the kernel-transform module. -/
inductive Kernel
  | gibbs
  | student

/-- The normalization-axis configurations `dim ∈ {0, 1, (0, 1)}`. -/
inductive NormDim
  | dim0
  | dim1
  | dimBoth

/-- Modelled from the spec: the pointwise kernel value: Gibbs
`exp(−C_ij)`, Student `(1 + C_ij)⁻¹`. -/
noncomputable def kernelVal (k : Kernel) (c : ℝ) : ℝ :=
  match k with
  | .gibbs => Real.exp (-c)
  | .student => (1 + c)⁻¹

/-- Modelled from the spec: the kernel transform `transform(C, kernel, dim)`:
apply the kernel entrywise and normalize by the sum over the configured
axis (rows for `dim = 1`, columns for `dim = 0`, the global sum for
`dim = (0, 1)`). -/
noncomputable def kernel_transform {n : ℕ} (k : Kernel) (d : NormDim)
    (C : Fin n → Fin n → ℝ) : Fin n → Fin n → ℝ :=
  match d with
  | .dim1 => fun i j => kernelVal k (C i j) / ∑ l, kernelVal k (C i l)
  | .dim0 => fun i j => kernelVal k (C i j) / ∑ l, kernelVal k (C l j)
  | .dimBoth => fun i j => kernelVal k (C i j) / ∑ p, ∑ q, kernelVal k (C p q)

/-- The optimizer backends of the symmetric entropic affinity dual ascent. -/
inductive Optimizer
  | Adam
  | LBFGS

/-- Modelled from the spec: the symmetric entropic affinity kernel at dual
variables `f`: `log_P_ij = −(C_ij − f_i − f_j)/2`.  The optimizer choice
(Adam or LBFGS) selects the dual-ascent procedure that produces `f`; the
returned matrix is this same symmetric kernel in either case, so the
construction does not depend on the optimizer. -/
noncomputable def log_Psea {n : ℕ} (_opt : Optimizer) (C : Fin n → Fin n → ℝ)
    (f : Fin n → ℝ) : Fin n → Fin n → ℝ :=
  fun i j => -(C i j - f i - f j) / 2

/-- Modelled from the spec: the symmetric log-domain Sinkhorn iterate of
the doubly stochastic module, with a single dual vector applied on both
sides (uniform marginals, symmetric kernel):
`log_P_ij = (f_i + f_j − C_ij)/eps`. -/
noncomputable def log_Pds {n : ℕ} (C : Fin n → Fin n → ℝ) (f : Fin n → ℝ)
    (eps : ℝ) : Fin n → Fin n → ℝ :=
  fun i j => (f i + f j - C i j) / eps

/-- The concrete 2-point cost matrix (zero diagonal, unit off-diagonal)
used on the unrestricted bracketing claim. -/
noncomputable def pairCost : Fin 2 → Fin 2 → ℝ :=
  fun i j => if i = j then 0 else 1

/-- The concrete 3-point cost matrix with rows `(0, 1, 2)`. -/
noncomputable def triCost : Fin 3 → Fin 3 → ℝ :=
  fun _ j => (j.val : ℝ)

/-- The denominator of a log-space softmax over a nonempty row is positive. -/
theorem sumExp_pos {n : ℕ} (hn : 0 < n) (v : Fin n → ℝ) :
    0 < ∑ j, Real.exp (v j) := by
  haveI : Nonempty (Fin n) := Fin.pos_iff_nonempty.mp hn
  exact Finset.sum_pos (fun j _ => Real.exp_pos _) Finset.univ_nonempty

/-- C1: the entropic affinity returned in log space by
`EntropicAffinity.fit_transform(X, log=True)` is row-stochastic (each row of
`exp(log_P)` sums to 1), and once the per-row bisection has met its entropy
tolerance (at most `1e-3`, e.g. the configured `tol = 1e-5`), every row's
log-space Shannon entropy equals `log(perplexity) + 1` within `1e-3`; this
holds for any cost matrix, hence for both metrics. -/
theorem entropic_affinity_invariants {n : ℕ} (C : Fin n → Fin n → ℝ)
    (eps : Fin n → ℝ) (perp tol : ℝ) (hn : 0 < n) (htol : tol ≤ 1e-3)
    (hconv : ∀ i, |entropyGap C perp eps i| ≤ tol) :
    (∀ i, expRowSum (log_Pe C eps) i = 1) ∧
    (∀ i, |entropy (log_Pe C eps) i - (Real.log perp + 1)| ≤ 1e-3) := by
  refine ⟨fun i => ?_, fun i => le_trans (hconv i) htol⟩
  have hZ : 0 < ∑ k, Real.exp (-C i k / eps i) := sumExp_pos hn _
  unfold expRowSum log_Pe logsumexp
  simp only [Real.exp_sub, Real.exp_log hZ]
  rw [← Finset.sum_div, div_self (ne_of_gt hZ)]

/-- C1 witness: the invariants at a concrete one-point dataset with unit
temperature and perplexity `exp(−1)` (target entropy 0), where the
bisection postcondition holds exactly. -/
theorem entropic_affinity_invariants_witness :
    (∀ i, expRowSum (log_Pe (fun _ _ : Fin 1 => (0 : ℝ)) fun _ => 1) i = 1) ∧
    (∀ i, |entropy (log_Pe (fun _ _ : Fin 1 => (0 : ℝ)) fun _ => 1) i -
      (Real.log (Real.exp (-1)) + 1)| ≤ 1e-3) :=
  entropic_affinity_invariants (fun _ _ => 0) (fun _ => 1) (Real.exp (-1)) 1e-3
    Nat.one_pos (le_refl _)
    (by
      intro i
      simp [entropyGap, entropy, log_Pe, logsumexp, Real.log_exp]
      norm_num)

/-- Each kernel value is positive on a nonnegative cost entry. -/
theorem kernelVal_pos (k : Kernel) {c : ℝ} (hc : 0 ≤ c) : 0 < kernelVal k c := by
  cases k with
  | gibbs => exact Real.exp_pos _
  | student => exact inv_pos.mpr (by linarith)

/-- C6: for every cost matrix, every kernel in {Gibbs, Student} and every
normalization dim in {0, 1, (0, 1)}, the kernel-transform output is an
`n×n` matrix with nonnegative entries that sums to 1 along the configured
axis: every row sum is 1 for `dim = 1`, every column sum is 1 for
`dim = 0`, and the global sum is 1 for `dim = (0, 1)`. -/
theorem kernel_transform_invariants {n : ℕ} (k : Kernel) (d : NormDim)
    (C : Fin n → Fin n → ℝ) (hn : 0 < n) (hC : ∀ i j, 0 ≤ C i j) :
    (∀ i j, 0 ≤ kernel_transform k d C i j) ∧
    (match d with
      | NormDim.dim1 => ∀ i, ∑ j, kernel_transform k d C i j = 1
      | NormDim.dim0 => ∀ j, ∑ i, kernel_transform k d C i j = 1
      | NormDim.dimBoth => ∑ i, ∑ j, kernel_transform k d C i j = 1) := by
  haveI : Nonempty (Fin n) := Fin.pos_iff_nonempty.mp hn
  have hKpos : ∀ i j, 0 < kernelVal k (C i j) := fun i j => kernelVal_pos k (hC i j)
  cases d with
  | dim1 =>
    have hS : ∀ i, 0 < ∑ l, kernelVal k (C i l) :=
      fun i => Finset.sum_pos (fun l _ => hKpos i l) Finset.univ_nonempty
    constructor
    · intro i j
      exact div_nonneg (hKpos i j).le (hS i).le
    · intro i
      show (∑ j, kernelVal k (C i j) / ∑ l, kernelVal k (C i l)) = 1
      rw [← Finset.sum_div, div_self (ne_of_gt (hS i))]
  | dim0 =>
    have hS : ∀ j, 0 < ∑ l, kernelVal k (C l j) :=
      fun j => Finset.sum_pos (fun l _ => hKpos l j) Finset.univ_nonempty
    constructor
    · intro i j
      exact div_nonneg (hKpos i j).le (hS j).le
    · intro j
      show (∑ i, kernelVal k (C i j) / ∑ l, kernelVal k (C l j)) = 1
      rw [← Finset.sum_div, div_self (ne_of_gt (hS j))]
  | dimBoth =>
    have hT : 0 < ∑ p, ∑ q, kernelVal k (C p q) :=
      Finset.sum_pos
        (fun p _ => Finset.sum_pos (fun q _ => hKpos p q) Finset.univ_nonempty)
        Finset.univ_nonempty
    constructor
    · intro i j
      exact div_nonneg (hKpos i j).le hT.le
    · show (∑ i, ∑ j, kernelVal k (C i j) / ∑ p, ∑ q, kernelVal k (C p q)) = 1
      have : ∀ i, (∑ j, kernelVal k (C i j) / ∑ p, ∑ q, kernelVal k (C p q)) =
          (∑ j, kernelVal k (C i j)) / ∑ p, ∑ q, kernelVal k (C p q) :=
        fun i => (Finset.sum_div _ _ _).symm
      rw [Finset.sum_congr rfl fun i _ => this i, ← Finset.sum_div,
        div_self (ne_of_gt hT)]

/-- C6 witness: the Gibbs kernel with row normalization on a concrete
one-point cost matrix. -/
theorem kernel_transform_invariants_witness :
    (∀ i j, 0 ≤ kernel_transform Kernel.gibbs NormDim.dim1 (fun _ _ : Fin 1 => (0 : ℝ)) i j) ∧
    (∀ i, ∑ j, kernel_transform Kernel.gibbs NormDim.dim1 (fun _ _ : Fin 1 => (0 : ℝ)) i j = 1) :=
  kernel_transform_invariants Kernel.gibbs NormDim.dim1 (fun _ _ => 0)
    Nat.one_pos (fun _ _ => le_refl 0)

/-- C4: the matrix returned by `SymmetricEntropicAffinity.fit_transform` is
exactly symmetric by construction for either optimizer (Adam or LBFGS),
and once the dual ascent has met its tolerance (at most `1e-2`), every row
of `exp(log_P)` sums to 1 within `1e-2` and every row's log-space entropy
equals `log(perplexity) + 1` within `1e-2`; the optimizer choice does not
enter the construction, hence does not change these invariants. -/
theorem sym_entropic_affinity_invariants {n : ℕ} (opt : Optimizer)
    (C : Fin n → Fin n → ℝ) (f : Fin n → ℝ) (perp tol : ℝ)
    (hsym : ∀ i j, C i j = C j i) (htol : tol ≤ 1e-2)
    (hmarg : ∀ i, |expRowSum (log_Psea opt C f) i - 1| ≤ tol)
    (hent : ∀ i, |entropy (log_Psea opt C f) i - (Real.log perp + 1)| ≤ tol) :
    (∀ i j, log_Psea opt C f i j = log_Psea opt C f j i) ∧
    (∀ i, |expRowSum (log_Psea opt C f) i - 1| ≤ 1e-2) ∧
    (∀ i, |entropy (log_Psea opt C f) i - (Real.log perp + 1)| ≤ 1e-2) := by
  refine ⟨fun i j => ?_, fun i => le_trans (hmarg i) htol,
    fun i => le_trans (hent i) htol⟩
  show -(C i j - f i - f j) / 2 = -(C j i - f j - f i) / 2
  rw [hsym i j]
  ring

/-- C4 witness: the invariants at a concrete one-point dataset with zero
duals and perplexity `exp(−1)`, for the Adam optimizer. -/
theorem sym_entropic_affinity_invariants_witness :
    (∀ i j, log_Psea Optimizer.Adam (fun _ _ : Fin 1 => (0 : ℝ)) (fun _ => 0) i j =
      log_Psea Optimizer.Adam (fun _ _ : Fin 1 => (0 : ℝ)) (fun _ => 0) j i) ∧
    (∀ i, |expRowSum (log_Psea Optimizer.Adam (fun _ _ : Fin 1 => (0 : ℝ)) fun _ => 0) i - 1|
      ≤ 1e-2) ∧
    (∀ i, |entropy (log_Psea Optimizer.Adam (fun _ _ : Fin 1 => (0 : ℝ)) fun _ => 0) i -
      (Real.log (Real.exp (-1)) + 1)| ≤ 1e-2) :=
  sym_entropic_affinity_invariants Optimizer.Adam (fun _ _ => 0) (fun _ => 0)
    (Real.exp (-1)) 1e-2 (fun _ _ => rfl) (le_refl _)
    (by
      intro i
      simp [expRowSum, log_Psea]
      norm_num)
    (by
      intro i
      simp [entropy, log_Psea, Real.log_exp]
      norm_num)

/-- C5: the matrix returned by `DoublyStochasticEntropic.fit_transform` is
exactly symmetric by construction, and once the Sinkhorn iteration has met
its row-marginal tolerance (at most `1e-3`, e.g. the configured
`tol = 1e-3`), every row sum of `exp(log_P)` lies within `1e-3` of 1 and,
by symmetry, so does every column sum. -/
theorem doubly_stochastic_invariants {n : ℕ} (C : Fin n → Fin n → ℝ)
    (f : Fin n → ℝ) (eps tol : ℝ) (hsym : ∀ i j, C i j = C j i)
    (htol : tol ≤ 1e-3)
    (hconv : ∀ i, |expRowSum (log_Pds C f eps) i - 1| ≤ tol) :
    (∀ i j, log_Pds C f eps i j = log_Pds C f eps j i) ∧
    (∀ i, |expRowSum (log_Pds C f eps) i - 1| ≤ 1e-3) ∧
    (∀ j, |(∑ i, Real.exp (log_Pds C f eps i j)) - 1| ≤ 1e-3) := by
  have hs : ∀ i j, log_Pds C f eps i j = log_Pds C f eps j i := by
    intro i j
    show (f i + f j - C i j) / eps = (f j + f i - C j i) / eps
    rw [hsym i j]
    ring
  refine ⟨hs, fun i => le_trans (hconv i) htol, fun j => ?_⟩
  have hcol : (∑ i, Real.exp (log_Pds C f eps i j)) = expRowSum (log_Pds C f eps) j :=
    Finset.sum_congr rfl fun i _ => by rw [hs i j]
  rw [hcol]
  exact le_trans (hconv j) htol

/-- C5 witness: the invariants at a concrete one-point dataset with zero
dual, `eps = 1`, `tol = 1e-3`. -/
theorem doubly_stochastic_invariants_witness :
    (∀ i j, log_Pds (fun _ _ : Fin 1 => (0 : ℝ)) (fun _ => 0) 1 i j =
      log_Pds (fun _ _ : Fin 1 => (0 : ℝ)) (fun _ => 0) 1 j i) ∧
    (∀ i, |expRowSum (log_Pds (fun _ _ : Fin 1 => (0 : ℝ)) (fun _ => 0) 1) i - 1| ≤ 1e-3) ∧
    (∀ j, |(∑ i, Real.exp (log_Pds (fun _ _ : Fin 1 => (0 : ℝ)) (fun _ => 0) 1 i j)) - 1|
      ≤ 1e-3) :=
  doubly_stochastic_invariants (fun _ _ => 0) (fun _ => 0) 1 1e-3
    (fun _ _ => rfl) (le_refl _)
    (by
      intro i
      simp [expRowSum, log_Pds]
      norm_num)

/-- Each softmax probability is positive. -/
theorem softmaxRow_pos {n : ℕ} (hn : 0 < n) (c : Fin n → ℝ) (e : ℝ) (j : Fin n) :
    0 < softmaxRow c e j :=
  div_pos (Real.exp_pos _) (sumExp_pos hn _)

/-- Each softmax probability is strictly below 1 when the row has at least
two entries. -/
theorem softmaxRow_lt_one {n : ℕ} (hn : 1 < n) (c : Fin n → ℝ) (e : ℝ) (j : Fin n) :
    softmaxRow c e j < 1 := by
  have hZ : 0 < ∑ k, Real.exp (-c k / e) := sumExp_pos (Nat.lt_of_lt_of_le Nat.zero_lt_one hn.le) _
  rw [softmaxRow, div_lt_one hZ]
  haveI : Nontrivial (Fin n) := Fin.nontrivial_iff_two_le.mpr hn
  obtain ⟨j', hj'⟩ := exists_ne j
  exact Finset.single_lt_sum (f := fun k => Real.exp (-c k / e)) hj'
    (Finset.mem_univ j) (Finset.mem_univ j')
    (Real.exp_pos _) (fun k _ _ => (Real.exp_pos _).le)

/-- The softmax row sums to 1. -/
theorem softmaxRow_sum {n : ℕ} (hn : 0 < n) (c : Fin n → ℝ) (e : ℝ) :
    ∑ j, softmaxRow c e j = 1 := by
  have hZ : 0 < ∑ k, Real.exp (-c k / e) := sumExp_pos hn _
  unfold softmaxRow
  rw [← Finset.sum_div, div_self (ne_of_gt hZ)]

/-- The per-row entropy of `log_Pe`, computed in log space, is the Shannon
entropy of the softmax family at the row's temperature. -/
theorem entropy_log_Pe_eq {n : ℕ} (hn : 0 < n) (C : Fin n → Fin n → ℝ)
    (eps : Fin n → ℝ) (i : Fin n) :
    entropy (log_Pe C eps) i = rowEntropy (C i) (eps i) := by
  have hZ : 0 < ∑ k, Real.exp (-C i k / eps i) := sumExp_pos hn _
  have hexp : ∀ j, Real.exp (log_Pe C eps i j) = softmaxRow (C i) (eps i) j := by
    intro j
    unfold log_Pe logsumexp softmaxRow
    rw [Real.exp_sub, Real.exp_log hZ]
  have hlog : ∀ j, log_Pe C eps i j = Real.log (softmaxRow (C i) (eps i) j) := by
    intro j
    unfold log_Pe logsumexp softmaxRow
    rw [Real.log_div (Real.exp_ne_zero _) (ne_of_gt hZ), Real.log_exp]
  have h1 : (∑ j, Real.exp (log_Pe C eps i j) * log_Pe C eps i j)
      = ∑ j, softmaxRow (C i) (eps i) j * Real.log (softmaxRow (C i) (eps i) j) :=
    Finset.sum_congr rfl fun j _ => by rw [hexp j, hlog j]
  show -(∑ j, Real.exp (log_Pe C eps i j) * log_Pe C eps i j) = _
  rw [h1]
  unfold rowEntropy
  simp [Real.negMulLog, neg_mul, Finset.sum_neg_distrib]

/-- The softmax family is invariant under shifting the whole row by a
constant. -/
theorem softmaxRow_shift {n : ℕ} (c : Fin n → ℝ) (m e : ℝ) (j : Fin n) :
    softmaxRow (fun k => c k - m) e j = softmaxRow c e j := by
  unfold softmaxRow
  have key : ∀ k, Real.exp (-(c k - m) / e) = Real.exp (-c k / e) * Real.exp (m / e) := by
    intro k
    rw [← Real.exp_add]
    congr 1
    ring
  simp only [key]
  rw [← Finset.sum_mul, mul_div_mul_right _ _ (Real.exp_ne_zero _)]

/-- The softmax entropy is invariant under shifting the whole row by a
constant. -/
theorem rowEntropy_shift {n : ℕ} (c : Fin n → ℝ) (m e : ℝ) :
    rowEntropy (fun k => c k - m) e = rowEntropy c e := by
  unfold rowEntropy
  exact Finset.sum_congr rfl fun j _ => by rw [softmaxRow_shift]

/-- As the temperature grows, the softmax row tends to the uniform
distribution, so its entropy tends to `log n`. -/
theorem rowEntropy_tendsto_atTop {n : ℕ} (hn : 0 < n) (c : Fin n → ℝ) :
    Filter.Tendsto (rowEntropy c) Filter.atTop (nhds (Real.log n)) := by
  have hnR : (0 : ℝ) < n := Nat.cast_pos.mpr hn
  have h1 : ∀ j : Fin n, Filter.Tendsto (fun e => -c j / e) Filter.atTop (nhds 0) :=
    fun j => tendsto_const_nhds.div_atTop Filter.tendsto_id
  have h2 : ∀ j : Fin n,
      Filter.Tendsto (fun e => Real.exp (-c j / e)) Filter.atTop (nhds 1) := by
    intro j
    have h := (Real.continuous_exp.tendsto 0).comp (h1 j)
    simpa using h
  have h3 : Filter.Tendsto (fun e => ∑ k, Real.exp (-c k / e)) Filter.atTop
      (nhds ((n : ℝ))) := by
    have h := tendsto_finset_sum Finset.univ (fun k (_ : k ∈ Finset.univ) => h2 k)
    simpa [Finset.sum_const, Finset.card_univ] using h
  have h4 : ∀ j : Fin n, Filter.Tendsto (fun e => softmaxRow c e j) Filter.atTop
      (nhds (1 / (n : ℝ))) := by
    intro j
    exact (h2 j).div h3 (ne_of_gt hnR)
  have h5 : Filter.Tendsto (rowEntropy c) Filter.atTop
      (nhds (∑ _j : Fin n, Real.negMulLog (1 / (n : ℝ)))) := by
    have h := tendsto_finset_sum Finset.univ
      (fun j (_ : j ∈ Finset.univ) => (Real.continuous_negMulLog.tendsto _).comp (h4 j))
    exact h
  have h6 : (∑ _j : Fin n, Real.negMulLog (1 / (n : ℝ))) = Real.log n := by
    rw [Finset.sum_const, Finset.card_univ, Fintype.card_fin, nsmul_eq_mul,
      Real.negMulLog, one_div, Real.log_inv]
    field_simp
  rw [← h6]
  exact h5

/-- When the row minimum is attained uniquely, the softmax distribution
concentrates on the minimizer as the temperature tends to 0 from above, so
the entropy tends to 0. -/
theorem rowEntropy_tendsto_zero {n : ℕ} (c : Fin n → ℝ) (j0 : Fin n)
    (hmin : ∀ j, j ≠ j0 → c j0 < c j) :
    Filter.Tendsto (rowEntropy c) (nhdsWithin 0 (Set.Ioi 0)) (nhds 0) := by
  set d : Fin n → ℝ := fun k => c k - c j0 with hd
  have hd0 : d j0 = 0 := sub_self _
  have hdpos : ∀ j, j ≠ j0 → 0 < d j := fun j hj => sub_pos.mpr (hmin j hj)
  have hnum : ∀ j : Fin n, Filter.Tendsto (fun e => Real.exp (-d j / e))
      (nhdsWithin 0 (Set.Ioi 0)) (nhds (if j = j0 then 1 else 0)) := by
    intro j
    by_cases hj : j = j0
    · rw [if_pos hj]
      have hfun : (fun e : ℝ => Real.exp (-d j / e)) = fun _ => 1 := by
        funext e
        rw [hj, hd0]
        simp
      rw [hfun]
      exact tendsto_const_nhds
    · rw [if_neg hj]
      have h1 : Filter.Tendsto (fun e : ℝ => e⁻¹) (nhdsWithin 0 (Set.Ioi 0))
          Filter.atTop := tendsto_inv_zero_atTop
      have h2 : Filter.Tendsto (fun e : ℝ => d j * e⁻¹) (nhdsWithin 0 (Set.Ioi 0))
          Filter.atTop := Filter.Tendsto.const_mul_atTop (hdpos j hj) h1
      have h3 : Filter.Tendsto (fun e : ℝ => -(d j * e⁻¹)) (nhdsWithin 0 (Set.Ioi 0))
          Filter.atBot := Filter.tendsto_neg_atTop_atBot.comp h2
      have h4 := Real.tendsto_exp_atBot.comp h3
      have hfun : (fun e : ℝ => Real.exp (-d j / e)) =
          fun e => Real.exp (-(d j * e⁻¹)) := by
        funext e
        rw [div_eq_mul_inv, neg_mul]
      rw [hfun]
      exact h4
  have hden : Filter.Tendsto (fun e => ∑ k, Real.exp (-d k / e))
      (nhdsWithin 0 (Set.Ioi 0)) (nhds 1) := by
    have h := tendsto_finset_sum Finset.univ
      (fun k (_ : k ∈ Finset.univ) => hnum k)
    have hsum : (∑ k : Fin n, if k = j0 then (1 : ℝ) else 0) = 1 := by
      simp
    rw [hsum] at h
    exact h
  have hp : ∀ j : Fin n, Filter.Tendsto (fun e => softmaxRow d e j)
      (nhdsWithin 0 (Set.Ioi 0)) (nhds (if j = j0 then 1 else 0)) := by
    intro j
    have h := (hnum j).div hden one_ne_zero
    simpa using h
  have hH : Filter.Tendsto (fun e => rowEntropy d e) (nhdsWithin 0 (Set.Ioi 0))
      (nhds 0) := by
    have h := tendsto_finset_sum Finset.univ
      (fun j (_ : j ∈ Finset.univ) => (Real.continuous_negMulLog.tendsto _).comp (hp j))
    have hzero : (∑ j : Fin n, Real.negMulLog (if j = j0 then 1 else 0)) = 0 := by
      simp [apply_ite Real.negMulLog]
    rw [hzero] at h
    exact h
  exact hH.congr fun e => rowEntropy_shift c (c j0) e

/-- Under the spec's operating conditions (target entropy strictly between
0 and `log n`, unique per-row minimum), each row admits a temperature whose
softmax entropy is below target and one whose entropy is above target. -/
theorem exists_entropy_bracket {n : ℕ} (c : Fin n → ℝ) (t : ℝ) (j0 : Fin n)
    (hmin : ∀ j, j ≠ j0 → c j0 < c j) (ht0 : 0 < t) (htn : t < Real.log n) :
    (∃ e, rowEntropy c e < t) ∧ (∃ e, t < rowEntropy c e) := by
  have hn : 0 < n := by
    rcases Nat.eq_zero_or_pos n with h0 | h
    · rw [h0] at htn
      simp [Real.log_zero] at htn
      linarith
    · exact h
  constructor
  · exact ((rowEntropy_tendsto_zero c j0 hmin).eventually_lt_const ht0).exists
  · exact ((rowEntropy_tendsto_atTop hn c).eventually_const_lt htn).exists

/-- `negMulLog p < 1 − p` for `p` strictly between 0 and 1. -/
theorem negMulLog_lt_one_sub {p : ℝ} (h0 : 0 < p) (h1 : p < 1) :
    Real.negMulLog p < 1 - p := by
  have hinv : p⁻¹ ≠ 1 := by
    intro h
    rw [inv_eq_one] at h
    exact (ne_of_lt h1) h
  have hlog := Real.log_lt_sub_one_of_pos (inv_pos.mpr h0) hinv
  rw [Real.log_inv] at hlog
  have hmul := mul_lt_mul_of_pos_left hlog h0
  have hcancel : p * p⁻¹ = 1 := mul_inv_cancel₀ (ne_of_gt h0)
  rw [Real.negMulLog]
  nlinarith

/-- The softmax entropy of a two-point row is always strictly below 1. -/
theorem rowEntropy_two_lt_one (c : Fin 2 → ℝ) (e : ℝ) : rowEntropy c e < 1 := by
  have hp : ∀ j, 0 < softmaxRow c e j := softmaxRow_pos (by norm_num) c e
  have hq : ∀ j, softmaxRow c e j < 1 := softmaxRow_lt_one (by norm_num) c e
  have hsum : ∑ j, softmaxRow c e j = 1 := softmaxRow_sum (by norm_num) c e
  have h0 := negMulLog_lt_one_sub (hp 0) (hq 0)
  have h1 := negMulLog_lt_one_sub (hp 1) (hq 1)
  have hs2 : softmaxRow c e 0 + softmaxRow c e 1 = 1 := by
    simpa [Fin.sum_univ_two] using hsum
  unfold rowEntropy
  rw [Fin.sum_univ_two]
  linarith

/-- C2 counterexample: on the concrete two-point dataset `pairCost` with
perplexity 1 (target entropy `log 1 + 1 = 1`), the upper bisection bound
fails to bracket the root: the entropy-gap at `end` is strictly negative,
not strictly positive, because a two-point softmax entropy never
reaches 1; so the bracketing property does not hold for every dataset and
every perplexity. -/
theorem bounds_entropic_affinity_bracket_cex :
    entropyGap pairCost 1 ((bounds_entropic_affinity pairCost 1).2) 0 < 0 := by
  unfold entropyGap
  rw [entropy_log_Pe_eq (by norm_num)]
  have h := rowEntropy_two_lt_one (pairCost 0)
    (((bounds_entropic_affinity pairCost 1).2) 0)
  rw [Real.log_one]
  linarith

/-- C2 amended: whenever the target entropy `log(perplexity) + 1` lies
strictly between 0 and `log n` and each row of the cost matrix attains its
minimum at a unique index (non-degenerate data, as the spec's failure
clause requires), the interval returned by `bounds_entropic_affinity`
strictly brackets the root of the entropy-gap function for every row: the
gap is strictly negative at `begin` and strictly positive at `end`. -/
theorem bounds_entropic_affinity_bracket {n : ℕ} (C : Fin n → Fin n → ℝ) (perp : ℝ)
    (hmin : ∀ i, ∃ j0, ∀ j, j ≠ j0 → C i j0 < C i j)
    (ht0 : 0 < Real.log perp + 1) (htn : Real.log perp + 1 < Real.log n) :
    ∀ i, entropyGap C perp ((bounds_entropic_affinity C perp).1) i < 0 ∧
      0 < entropyGap C perp ((bounds_entropic_affinity C perp).2) i := by
  intro i
  have hn : 0 < n := by
    rcases Nat.eq_zero_or_pos n with h0 | h
    · rw [h0] at htn
      simp [Real.log_zero] at htn
      linarith
    · exact h
  obtain ⟨j0, hj0⟩ := hmin i
  obtain ⟨hlo, hhi⟩ :=
    exists_entropy_bracket (C i) (Real.log perp + 1) j0 hj0 ht0 htn
  constructor
  · unfold entropyGap
    rw [entropy_log_Pe_eq hn]
    have heq : (bounds_entropic_affinity C perp).1 i = hlo.choose := dif_pos hlo
    rw [heq]
    have hspec := hlo.choose_spec
    linarith
  · unfold entropyGap
    rw [entropy_log_Pe_eq hn]
    have heq : (bounds_entropic_affinity C perp).2 i = hhi.choose := dif_pos hhi
    rw [heq]
    have hspec := hhi.choose_spec
    linarith

/-- C2 amended witness: the strict bracket at the concrete three-point
cost matrix `triCost` with perplexity 1 (target entropy 1, strictly
between 0 and `log 3`). -/
theorem bounds_entropic_affinity_bracket_witness :
    entropyGap triCost 1 ((bounds_entropic_affinity triCost 1).1) 0 < 0 ∧
      0 < entropyGap triCost 1 ((bounds_entropic_affinity triCost 1).2) 0 :=
  bounds_entropic_affinity_bracket triCost 1
    (fun i => ⟨0, fun j hj => by
      fin_cases j
      · exact absurd rfl hj
      · simp [triCost]
      · simp [triCost]⟩)
    (by rw [Real.log_one]; norm_num)
    (by
      rw [Real.log_one, zero_add]
      have h3 : ((3 : ℕ) : ℝ) = 3 := by norm_num
      rw [h3]
      rw [Real.lt_log_iff_exp_lt (by norm_num)]
      exact Real.exp_one_lt_d9.trans (by norm_num))
    0

/-- C7: `to_torch` raises a `ValueError` on every complex or non-finite
input (no tensor is returned), and a real, finite input never triggers the
complex or non-finite error. -/
theorem to_torch_rejects_invalid (ca : Bool) (dev : Option String) (x : ArrayInput) :
    ((x.isComplexInput = true ∨ x.finiteAll = false) →
      ∃ e, to_torch ca dev x = Except.error e) ∧
    (x.isComplexInput = false → x.finiteAll = true →
      to_torch ca dev x ≠ Except.error ErrKind.complexErr ∧
      to_torch ca dev x ≠ Except.error ErrKind.nonfiniteErr) := by
  cases x with
  | torch t =>
    obtain ⟨c, f, nd, fl, dv, cg⟩ := t
    cases c <;> cases f <;> cases fl <;>
      simp [to_torch, to_torch_core, ArrayInput.isComplexInput, ArrayInput.finiteAll,
        TorchTensor.to, TorchTensor.float, TorchTensor.contiguous]
  | numpy a =>
    obtain ⟨c, im, f, nd, fl⟩ := a
    cases c <;> cases im <;> cases f <;> cases fl <;>
      by_cases h2 : nd = 2 <;>
      simp [to_torch, to_torch_core, check_array, from_numpy, ArrayInput.isComplexInput,
        ArrayInput.finiteAll, TorchTensor.to, TorchTensor.float, TorchTensor.contiguous, h2]

/-- C7 witness: the first part at a concrete complex tensor, the second at
a concrete real finite tensor. -/
theorem to_torch_rejects_invalid_witness :
    (∃ e, to_torch false none (ArrayInput.torch complexTensor) = Except.error e) ∧
    (to_torch false none (ArrayInput.torch planeTensor) ≠ Except.error ErrKind.complexErr ∧
      to_torch false none (ArrayInput.torch planeTensor) ≠ Except.error ErrKind.nonfiniteErr) :=
  ⟨(to_torch_rejects_invalid false none _).1 (Or.inl rfl),
   (to_torch_rejects_invalid false none _).2 rfl rfl⟩

/-- C8 counterexample: a real, finite, 1-D torch tensor is not rejected by
`to_torch`: the call returns a tensor, so shape is not validated for torch
inputs. -/
theorem to_torch_accepts_non2d_torch :
    to_torch false none (ArrayInput.torch oneDTensor) = Except.ok oneDTensor := by
  rfl

/-- C8 amended: only numpy inputs are shape-validated: a real numpy array
that is not 2-D raises an error (from `check_array`), while a real, finite
torch tensor of any dimensionality is accepted unchecked. -/
theorem shape_validation_numpy_only (ca : Bool) (dev : Option String) :
    (∀ a : NumpyArray, a.isComplexDtype = false → a.ndim ≠ 2 →
      to_torch ca dev (ArrayInput.numpy a) = Except.error ErrKind.shapeErr) ∧
    (∀ t : TorchTensor, t.isComplex = false → t.allFinite = true →
      ∃ t1, to_torch ca dev (ArrayInput.torch t) = Except.ok t1) := by
  constructor
  · intro a hc h2
    simp [to_torch, to_torch_core, check_array, hc, h2]
  · intro t hc hf
    simp [to_torch, to_torch_core, hc, hf]

/-- C8 amended witness: a concrete 1-D numpy array is rejected with the
shape error, while a concrete 1-D torch tensor is accepted. -/
theorem shape_validation_numpy_only_witness :
    to_torch false none (ArrayInput.numpy oneDIntArray) = Except.error ErrKind.shapeErr ∧
    ∃ t1, to_torch false none (ArrayInput.torch oneDTensor) = Except.ok t1 :=
  ⟨(shape_validation_numpy_only false none).1 _ rfl (by decide),
   (shape_validation_numpy_only false none).2 oneDTensor rfl rfl⟩

/-- C9: operations wrapped by `handle_backend` restore the input backend
and device: a numpy input yields a numpy output, and a torch input on
device `d` yields a torch output on device `d`. -/
theorem handle_backend_roundtrip (ca : Bool) (dev : Option String)
    (func : TorchTensor → TorchTensor) (X : ArrayInput) (out : ArrayInput)
    (h : handle_backend ca dev func X = Except.ok out) :
    out.backendTag = X.backendTag ∧
    (∀ t, X = ArrayInput.torch t →
      ∃ t1, out = ArrayInput.torch t1 ∧ t1.device = t.device) := by
  cases X with
  | torch t =>
    by_cases hc : t.isComplex = true
    · simp [handle_backend, to_torch_rbd, to_torch_core, hc] at h
    · by_cases hf : t.allFinite = true
      · simp only [handle_backend, to_torch_rbd, to_torch_core, hc, hf, Bool.not_eq_true,
          if_false, Bool.not_true, Bool.not_false, if_true, Bool.false_eq_true,
          Bool.not_eq_false, Except.ok.injEq] at h
        subst h
        refine ⟨rfl, ?_⟩
        intro t2 ht2
        obtain rfl : t = t2 := by injection ht2
        exact ⟨_, rfl, rfl⟩
      · simp [handle_backend, to_torch_rbd, to_torch_core, hc, hf] at h
  | numpy a =>
    refine ⟨?_, ?_⟩
    · by_cases hc : a.isComplexDtype = true
      · simp [handle_backend, to_torch_rbd, to_torch_core, check_array, hc] at h
      · by_cases h2 : a.ndim = 2
        · by_cases hf : a.allFinite = true
          · simp [handle_backend, to_torch_rbd, to_torch_core, check_array, hc, h2, hf,
              torch_to_backend, from_numpy] at h
            subst h
            rfl
          · simp [handle_backend, to_torch_rbd, to_torch_core, check_array, hc, h2, hf] at h
        · simp [handle_backend, to_torch_rbd, to_torch_core, check_array, hc, h2] at h
    · intro t2 ht2
      exact absurd ht2 (by simp)

/-- C9 witness: the round trip at a concrete torch input on the cpu
device, with the identity as the wrapped computation. -/
theorem handle_backend_roundtrip_witness :
    (ArrayInput.torch (planeTensor.to TDevice.cpu)).backendTag =
      (ArrayInput.torch planeTensor).backendTag ∧
    ∃ t1, ArrayInput.torch (planeTensor.to TDevice.cpu) = ArrayInput.torch t1 ∧
      t1.device = planeTensor.device :=
  ⟨(handle_backend_roundtrip false none id (ArrayInput.torch planeTensor)
      (ArrayInput.torch (planeTensor.to TDevice.cpu)) rfl).1,
   (handle_backend_roundtrip false none id (ArrayInput.torch planeTensor)
      (ArrayInput.torch (planeTensor.to TDevice.cpu)) rfl).2 planeTensor rfl⟩

/-- C10: every tensor returned by `to_torch` (in either return mode) has a
floating-point dtype and is contiguous, and real finite integer-dtype 2-D
numpy inputs are accepted (silently converted to float), not rejected. -/
theorem to_torch_float_contiguous (ca : Bool) (dev : Option String) (x : ArrayInput) :
    (∀ t, to_torch ca dev x = Except.ok t → t.isFloatDtype = true ∧ t.contig = true) ∧
    (∀ t b d, to_torch_rbd ca dev x = Except.ok (t, b, d) →
      t.isFloatDtype = true ∧ t.contig = true) ∧
    (∀ a : NumpyArray, x = ArrayInput.numpy a → a.isComplexDtype = false →
      a.allFinite = true → a.ndim = 2 →
      ∃ t, to_torch ca dev x = Except.ok t) := by
  cases x with
  | torch t =>
    obtain ⟨c, f, nd, fl, dv, cg⟩ := t
    cases c <;> cases f <;> cases fl <;>
      simp [to_torch, to_torch_rbd, to_torch_core, ArrayInput.isComplexInput,
        ArrayInput.finiteAll, TorchTensor.to, TorchTensor.float, TorchTensor.contiguous]
  | numpy a =>
    obtain ⟨c, im, f, nd, fl⟩ := a
    cases c <;> cases im <;> cases f <;> cases fl <;>
      by_cases h2 : nd = 2 <;>
      simp [to_torch, to_torch_rbd, to_torch_core, check_array, from_numpy,
        ArrayInput.isComplexInput, ArrayInput.finiteAll, TorchTensor.to,
        TorchTensor.float, TorchTensor.contiguous, h2]

/-- C10 witness: the integer-dtype 2-D numpy array is accepted and the
returned tensor is floating and contiguous. -/
theorem to_torch_float_contiguous_witness :
    (∀ t, to_torch false none (ArrayInput.numpy intArray) = Except.ok t →
      t.isFloatDtype = true ∧ t.contig = true) ∧
    ∃ t, to_torch false none (ArrayInput.numpy intArray) = Except.ok t :=
  ⟨(to_torch_float_contiguous false none (ArrayInput.numpy intArray)).1,
   (to_torch_float_contiguous false none (ArrayInput.numpy intArray)).2.2 intArray
     rfl rfl rfl rfl⟩

end TorchDR
